import Mathlib

/-!
Verification of the `chop_reads` alignment chopper (`src/alignment_chopper.rs`).

The development is a shallow embedding of the Rust source:
* `Cigar`, `SplitCigarBuf`, `consume_cigar` embed the CIGAR splitter
  (lines 89-144 of `alignment_chopper.rs`);
* `Record` embeds the fields of `rust_htslib::bam::Record` that the chopper
  reads or writes (auxiliary data is modelled as a tag/value list, since the
  chopper drops all aux data except an optional RG rewrite);
* `AlignmentChopper` / `AlignmentChopper.new` embed the configuration struct
  and its constructor (lines 5-43);
* `add_chunk_record` embeds fragment materialization (lines 51-87); a Rust
  panic (index underflow in `slice_end -= trailing_clipped_bases`, or an
  out-of-bounds slice `&seq[query_offset..slice_end]`) is modelled as `none`;
* `chop_read` embeds the driving pass (lines 146-272).  Its per-operation
  body (the source duplicates the loop body verbatim for the first operation,
  lines 174-220 versus 222-264) is a single function `processOp`; the inner
  `while let Some(c_buf) = right_c` loop becomes `innerWhile`, structurally
  recursive on a fuel that is sufficient whenever `chunk_size >= 1` (each
  iteration shortens the remainder by at least `chunk_size`); with
  `chunk_size = 0` the Rust loop never terminates, which the model maps to
  `none`.

Lengths are `Nat` (the source uses `u32`/`usize`; all arithmetic stays far
from overflow and the single subtraction that can underflow is modelled
explicitly).  Positions are `Int` (the source uses `i64`).
-/

/-- CIGAR operation (mirrors `rust_htslib::bam::record::Cigar`): a kind
carrying a length in bases. -/
inductive Cigar where
  | Match (x : Nat)
  | Ins (x : Nat)
  | Del (x : Nat)
  | RefSkip (x : Nat)
  | SoftClip (x : Nat)
  | HardClip (x : Nat)
  | Pad (x : Nat)
  | Equal (x : Nat)
  | Diff (x : Nat)
deriving DecidableEq, Repr

/-- Raw stored length of an operation (htslib `Cigar::len()`). -/
def Cigar.opLen : Cigar → Nat
  | .Match x => x
  | .Ins x => x
  | .Del x => x
  | .RefSkip x => x
  | .SoftClip x => x
  | .HardClip x => x
  | .Pad x => x
  | .Equal x => x
  | .Diff x => x

/-- Number of query (read) bases an operation consumes: M, I, S, =, X. -/
def Cigar.queryLen : Cigar → Nat
  | .Match x => x
  | .Ins x => x
  | .Del _ => 0
  | .RefSkip _ => 0
  | .SoftClip x => x
  | .HardClip _ => 0
  | .Pad _ => 0
  | .Equal x => x
  | .Diff x => x

/-- Number of reference bases an operation consumes: M, D, N, =, X. -/
def Cigar.refLen : Cigar → Nat
  | .Match x => x
  | .Ins _ => 0
  | .Del x => x
  | .RefSkip x => x
  | .SoftClip _ => 0
  | .HardClip _ => 0
  | .Pad _ => 0
  | .Equal x => x
  | .Diff x => x

/-- The `matches!(c, Cigar::SoftClip(_) | Cigar::HardClip(_))` test of the
source. -/
def Cigar.isClip : Cigar → Bool
  | .SoftClip _ => true
  | .HardClip _ => true
  | _ => false

/-- Total query-consuming length of a CIGAR string. -/
def cigarQueryLen (l : List Cigar) : Nat := (l.map Cigar.queryLen).sum

/-- Total reference-consuming length of a CIGAR string. -/
def cigarRefLen (l : List Cigar) : Nat := (l.map Cigar.refLen).sum

/-- Result of splitting one CIGAR operation (source struct `SplitCigarBuf`,
lines 14-31).  `ref_offset` is `i64` in the source but always a cast of a
`u32`, so it is a `Nat` here. -/
structure SplitCigarBuf where
  left_c : Cigar
  right_c : Option Cigar
  query_offset : Nat
  ref_offset : Nat
deriving DecidableEq, Repr

/-- `AlignmentChopper::consume_cigar` (lines 89-144), verbatim by kind. -/
def consume_cigar (c : Cigar) (amount : Nat) : SplitCigarBuf :=
  match c with
  | .Match x =>
    if amount < x then ⟨.Match amount, some (.Match (x - amount)), amount, amount⟩
    else ⟨.Match x, none, x, x⟩
  | .Ins x =>
    if amount < x then ⟨.Ins amount, some (.Ins (x - amount)), amount, 0⟩
    else ⟨.Ins x, none, x, 0⟩
  | .Del x => ⟨.Del x, none, 0, x⟩
  | .RefSkip x => ⟨.RefSkip x, none, 0, x⟩
  | .SoftClip x =>
    if amount < x then ⟨.SoftClip amount, some (.SoftClip (x - amount)), amount, 0⟩
    else ⟨.SoftClip x, none, x, 0⟩
  | .HardClip x => ⟨.HardClip x, none, 0, 0⟩
  | .Pad x => ⟨.Pad x, none, 0, 0⟩
  | .Equal x =>
    if amount < x then ⟨.Equal amount, some (.Equal (x - amount)), amount, amount⟩
    else ⟨.Equal x, none, x, x⟩
  | .Diff x =>
    if amount < x then ⟨.Diff amount, some (.Diff (x - amount)), amount, amount⟩
    else ⟨.Diff x, none, x, x⟩

/-- The fields of `rust_htslib::bam::Record` the chopper reads or writes.
`seq`/`qual` are byte lists; `aux` is the auxiliary tag list (the chopper
never copies aux data from the input; it only optionally writes an RG tag). -/
structure Record where
  qname : String
  seq : List Nat
  qual : List Nat
  cigar : List Cigar
  pos : Int
  flags : Nat
  tid : Int
  mapq : Nat
  mtid : Int
  mpos : Int
  insert_size : Int
  aux : List (String × String)
deriving DecidableEq, Repr

/-- Configuration part of the `AlignmentChopper` struct (lines 5-12).  The
two buffers are per-call state, modelled in `ChopState`. -/
structure AlignmentChopper where
  chunk_size : Nat
  min_length : Nat
  skip_clipped_bases : Bool
  read_group : Option String
deriving DecidableEq, Repr

/-- `AlignmentChopper::new` (lines 34-43): stores the four parameters
unconditionally; there is no validation of any kind. -/
def AlignmentChopper.new (chunk_size : Nat) (min_length : Nat)
    (skip_clipped_bases : Bool) (read_group : Option String) : AlignmentChopper :=
  { chunk_size := chunk_size, min_length := min_length,
    skip_clipped_bases := skip_clipped_bases, read_group := read_group }

/-- Byte-range slice `&l[a..b]` of a list. -/
def byteSlice (l : List Nat) (a b : Nat) : List Nat := (l.take b).drop a

/-- Auxiliary data of an emitted fragment (lines 78-84): aux data is never
copied from the input; only an RG tag is written when a read group is
configured (the `remove_aux` call is dead on a freshly built record). -/
def rgAux (ch : AlignmentChopper) : List (String × String) :=
  match ch.read_group with
  | some rg => [("RG", rg)]
  | none => []

/-- `AlignmentChopper::add_chunk_record` (lines 51-87).  Returns `none` where
the Rust code panics: the `usize` underflow in
`slice_end -= trailing_clipped_bases`, or an out-of-range slice
(`query_offset > slice_end`, or `slice_end` beyond the quality array for a
record whose quality length disagrees with its sequence length).  The fragment
copies flags, tid, mapq, mtid, mpos and insert size; aux data is dropped and
an RG tag is written exactly when a read group is configured. -/
def add_chunk_record (ch : AlignmentChopper) (original_rec : Record)
    (pieces : List Record) (new_cigar : List Cigar) (ref_offset : Nat)
    (query_offset : Nat) (trailing_clipped_bases : Nat) (last : Bool) :
    Option Record :=
  let chunk_num := pieces.length
  let slice_end0 := min original_rec.seq.length (query_offset + ch.chunk_size)
  if last ∧ slice_end0 < trailing_clipped_bases then none
  else
    let slice_end := if last then slice_end0 - trailing_clipped_bases else slice_end0
    if query_offset ≤ slice_end ∧ slice_end ≤ original_rec.qual.length then
      some { qname := original_rec.qname ++ "-" ++ toString chunk_num,
             seq := byteSlice original_rec.seq query_offset slice_end,
             qual := byteSlice original_rec.qual query_offset slice_end,
             cigar := new_cigar,
             pos := original_rec.pos + (ref_offset : Int),
             flags := original_rec.flags,
             tid := original_rec.tid,
             mapq := original_rec.mapq,
             mtid := original_rec.mtid,
             mpos := original_rec.mpos,
             insert_size := original_rec.insert_size,
             aux := rgAux ch }
    else none

/-- Mutable state of one `chop_read` call (lines 149-156 plus the record
buffer `rec_pieces_buffer`). -/
structure ChopState where
  global_ref_offset : Nat
  global_query_offset : Nat
  cigar_string : List Cigar
  local_ref_consumed : Nat
  local_query_consumed : Nat
  pieces : List Record
deriving DecidableEq, Repr

/-- Initial state of a `chop_read` call (after `reset`). -/
def initState : ChopState := ⟨0, 0, [], 0, 0, []⟩

/-- Lines 179-181 / 224-226: push the left part of a consumption onto the
current fragment CIGAR and accumulate the local counters. -/
def pushConsume (st : ChopState) (sp : SplitCigarBuf) : ChopState :=
  { st with cigar_string := st.cigar_string ++ [sp.left_c],
            local_ref_consumed := st.local_ref_consumed + sp.ref_offset,
            local_query_consumed := st.local_query_consumed + sp.query_offset }

/-- Lines 187-196 / 232-241 / 247-256: emit the current fragment, fold the
local counters into the global offsets and restart a consumption cycle. -/
def emitStep (ch : AlignmentChopper) (rec : Record) (trailing : Nat)
    (st : ChopState) : Option ChopState :=
  match add_chunk_record ch rec st.pieces st.cigar_string st.global_ref_offset
      st.global_query_offset trailing false with
  | none => none
  | some r =>
    some { global_ref_offset := st.global_ref_offset + st.local_ref_consumed,
           global_query_offset := st.global_query_offset + st.local_query_consumed,
           cigar_string := [],
           local_ref_consumed := 0,
           local_query_consumed := 0,
           pieces := st.pieces ++ [r] }

/-- The `while let Some(c_buf) = cigar_consumption.right_c` loop
(lines 200-217 / 245-262).  The fuel argument only bounds the iteration
count; `chunk_size ≥ 1` makes the supplied fuel sufficient because every
iteration shortens the remainder by `chunk_size`.  With `chunk_size = 0` the
source loop never terminates; exhausted fuel yields `none`. -/
def innerWhile (ch : AlignmentChopper) (rec : Record) (trailing : Nat) :
    Nat → ChopState → Cigar → Option ChopState
  | 0, _, _ => none
  | fuel + 1, st, c_buf =>
    match emitStep ch rec trailing st with
    | none => none
    | some st1 =>
      let sp := consume_cigar c_buf (ch.chunk_size - st1.local_query_consumed)
      let st2 := pushConsume st1 sp
      match sp.right_c with
      | none => some st2
      | some c_buf2 => innerWhile ch rec trailing fuel st2 c_buf2

/-- One iteration of the main pass (lines 222-264; the source repeats this
body verbatim for the first operation at lines 174-220). -/
def processOp (ch : AlignmentChopper) (rec : Record) (trailing : Nat)
    (st : ChopState) (c : Cigar) : Option ChopState :=
  let sp := consume_cigar c (ch.chunk_size - st.local_query_consumed)
  let st1 := pushConsume st sp
  match sp.right_c with
  | none =>
    if st1.local_query_consumed = ch.chunk_size then emitStep ch rec trailing st1
    else some st1
  | some c_buf => innerWhile ch rec trailing (c_buf.opLen + 1) st1 c_buf

/-- The `for c in cigar_iter` loop (lines 222-264). -/
def foldOps (ch : AlignmentChopper) (rec : Record) (trailing : Nat) :
    ChopState → List Cigar → Option ChopState
  | st, [] => some st
  | st, c :: cs =>
    match processOp ch rec trailing st c with
    | none => none
    | some st' => foldOps ch rec trailing st' cs

/-- Trailing-clip trimming (lines 161-169) on the reversed CIGAR: pop from
the end while the last operation is a soft or hard clip and clips are being
skipped, accumulating the popped raw lengths. -/
def trimTrailingRev (skip : Bool) : List Cigar → List Cigar × Nat
  | [] => ([], 0)
  | c :: rest =>
    if skip ∧ c.isClip then
      let p := trimTrailingRev skip rest
      (p.1, p.2 + c.opLen)
    else (c :: rest, 0)

/-- Trailing-clip trimming (lines 161-169): the working CIGAR and the
`trailing_clipped_bases` counter. -/
def trimTrailing (skip : Bool) (l : List Cigar) : List Cigar × Nat :=
  let p := trimTrailingRev skip l.reverse
  (p.1.reverse, p.2)

/-- The main pass of `chop_read` up to (not including) the final min-length
emission: trailing-clip trimming (lines 161-169), the special-cased first
operation (lines 174-220, whose non-clip branch is verbatim the loop body)
and the loop over the remaining operations (lines 222-264). -/
def chopCore (ch : AlignmentChopper) (rec : Record) : Option ChopState :=
  let working := (trimTrailing ch.skip_clipped_bases rec.cigar).1
  let trailing := (trimTrailing ch.skip_clipped_bases rec.cigar).2
  match working with
  | [] => some initState
  | c0 :: rest =>
    let sp := consume_cigar c0 ch.chunk_size
    if ch.skip_clipped_bases ∧ sp.left_c.isClip then
      foldOps ch rec trailing { initState with global_query_offset := sp.query_offset } rest
    else
      foldOps ch rec trailing initState (c0 :: rest)

/-- The final min-length emission (lines 266-269) and result (line 271). -/
def finalStep (ch : AlignmentChopper) (rec : Record) (trailing : Nat)
    (st : ChopState) : Option (List Record) :=
  if ch.min_length ≤ st.local_query_consumed then
    match add_chunk_record ch rec st.pieces st.cigar_string st.global_ref_offset
        st.global_query_offset trailing true with
    | none => none
    | some r => some (st.pieces ++ [r])
  else some st.pieces

/-- `AlignmentChopper::chop_read` (lines 146-272).  `none` models a Rust
panic (or, with `chunk_size = 0`, a non-terminating run). -/
def chop_read (ch : AlignmentChopper) (rec : Record) : Option (List Record) :=
  match chopCore ch rec with
  | none => none
  | some st => finalStep ch rec (trimTrailing ch.skip_clipped_bases rec.cigar).2 st

/-- Sum of the query-consuming CIGAR lengths of a list of records. -/
def recordsQueryLen (l : List Record) : Nat := (l.map (fun r => cigarQueryLen r.cigar)).sum

/-- Sum of the reference-consuming CIGAR lengths of a list of records. -/
def recordsRefLen (l : List Record) : Nat := (l.map (fun r => cigarRefLen r.cigar)).sum

/-- Query length of an optional remainder operation. -/
def optQueryLen : Option Cigar → Nat
  | none => 0
  | some c => c.queryLen

/-- Reference length of an optional remainder operation. -/
def optRefLen : Option Cigar → Nat
  | none => 0
  | some c => c.refLen

theorem consume_left_queryLen (c : Cigar) (amount : Nat) :
    (consume_cigar c amount).left_c.queryLen = (consume_cigar c amount).query_offset := by
  cases c <;> simp only [consume_cigar] <;> first
    | rfl
    | (split <;> rfl)

theorem consume_left_refLen (c : Cigar) (amount : Nat) :
    (consume_cigar c amount).left_c.refLen = (consume_cigar c amount).ref_offset := by
  cases c <;> simp only [consume_cigar] <;> first
    | rfl
    | (split <;> rfl)

theorem consume_query_add (c : Cigar) (amount : Nat) :
    (consume_cigar c amount).query_offset + optQueryLen (consume_cigar c amount).right_c
      = c.queryLen := by
  cases c <;> simp only [consume_cigar] <;> first
    | rfl
    | (split <;> simp only [optQueryLen, Cigar.queryLen] <;> omega)

theorem consume_ref_add (c : Cigar) (amount : Nat) :
    (consume_cigar c amount).ref_offset + optRefLen (consume_cigar c amount).right_c
      = c.refLen := by
  cases c <;> simp only [consume_cigar] <;> first
    | rfl
    | (split <;> simp only [optRefLen, Cigar.refLen] <;> omega)

theorem consume_query_le (c : Cigar) (amount : Nat) :
    (consume_cigar c amount).query_offset ≤ amount := by
  cases c <;> simp only [consume_cigar] <;> first
    | simp
    | (split <;> simp only [] <;> omega)

theorem consume_right_query (c : Cigar) (amount : Nat) (r : Cigar)
    (h : (consume_cigar c amount).right_c = some r) :
    (consume_cigar c amount).query_offset = amount := by
  cases c <;> simp only [consume_cigar] at h ⊢ <;> first
    | exact absurd h (by simp)
    | (split at h <;> simp_all)

theorem consume_full (c : Cigar) (amount : Nat) (h : c.queryLen ≤ amount) :
    consume_cigar c amount = ⟨c, none, c.queryLen, c.refLen⟩ := by
  cases c <;> simp only [Cigar.queryLen] at h <;>
    simp only [consume_cigar, Cigar.queryLen, Cigar.refLen] <;> first
    | rfl
    | (rw [if_neg (by omega)])

theorem cigarQueryLen_nil : cigarQueryLen [] = 0 := rfl

theorem cigarQueryLen_cons (c : Cigar) (l : List Cigar) :
    cigarQueryLen (c :: l) = c.queryLen + cigarQueryLen l := by
  simp [cigarQueryLen]

theorem cigarQueryLen_append (l₁ l₂ : List Cigar) :
    cigarQueryLen (l₁ ++ l₂) = cigarQueryLen l₁ + cigarQueryLen l₂ := by
  simp [cigarQueryLen]

theorem cigarRefLen_nil : cigarRefLen [] = 0 := rfl

theorem cigarRefLen_cons (c : Cigar) (l : List Cigar) :
    cigarRefLen (c :: l) = c.refLen + cigarRefLen l := by
  simp [cigarRefLen]

theorem cigarRefLen_append (l₁ l₂ : List Cigar) :
    cigarRefLen (l₁ ++ l₂) = cigarRefLen l₁ + cigarRefLen l₂ := by
  simp [cigarRefLen]

theorem cigarQueryLen_reverse (l : List Cigar) :
    cigarQueryLen l.reverse = cigarQueryLen l := by
  simp [cigarQueryLen, List.sum_reverse]

theorem recordsQueryLen_nil : recordsQueryLen [] = 0 := rfl

theorem recordsQueryLen_append (l₁ l₂ : List Record) :
    recordsQueryLen (l₁ ++ l₂) = recordsQueryLen l₁ + recordsQueryLen l₂ := by
  simp [recordsQueryLen]

theorem recordsRefLen_nil : recordsRefLen [] = 0 := rfl

theorem recordsRefLen_append (l₁ l₂ : List Record) :
    recordsRefLen (l₁ ++ l₂) = recordsRefLen l₁ + recordsRefLen l₂ := by
  simp [recordsRefLen]

/-- Positions of an emitted-fragment list are anchored at `basePos` and each
fragment advances the anchor by its reference-consuming CIGAR length. -/
def PiecesOk (basePos : Int) : List Record → Prop
  | [] => True
  | r :: rest => r.pos = basePos ∧ PiecesOk (basePos + (cigarRefLen r.cigar : Int)) rest

/-- Fragment names carry the original name plus a dense 0-based index
starting at `n`. -/
def NamesOk (qn : String) : Nat → List Record → Prop
  | _, [] => True
  | n, r :: rest => r.qname = qn ++ "-" ++ toString n ∧ NamesOk qn (n + 1) rest

theorem PiecesOk_append_singleton (b : Int) (l : List Record) (r : Record)
    (hl : PiecesOk b l) (hr : r.pos = b + (recordsRefLen l : Int)) :
    PiecesOk b (l ++ [r]) := by
  induction l generalizing b with
  | nil =>
    simp only [List.nil_append, PiecesOk]
    exact ⟨by simpa [recordsRefLen] using hr, trivial⟩
  | cons p rest ih =>
    simp only [PiecesOk] at hl
    simp only [List.cons_append, PiecesOk]
    refine ⟨hl.1, ih _ hl.2 ?_⟩
    rw [hr]
    simp [recordsRefLen]
    ring

theorem NamesOk_append_singleton (qn : String) (n : Nat) (l : List Record) (r : Record)
    (hl : NamesOk qn n l) (hr : r.qname = qn ++ "-" ++ toString (n + l.length)) :
    NamesOk qn n (l ++ [r]) := by
  induction l generalizing n with
  | nil =>
    simp only [List.nil_append, NamesOk]
    exact ⟨by simpa using hr, trivial⟩
  | cons p rest ih =>
    simp only [NamesOk] at hl
    simp only [List.cons_append, NamesOk]
    refine ⟨hl.1, ih _ hl.2 ?_⟩
    rw [hr]
    simp only [List.length_cons]
    ring_nf

theorem PiecesOk_get (b : Int) (l : List Record) (h : PiecesOk b l) :
    ∀ i (hi : i < l.length), (l.get ⟨i, hi⟩).pos = b + (recordsRefLen (l.take i) : Int) := by
  induction l generalizing b with
  | nil => intro i hi; simp at hi
  | cons p rest ih =>
    intro i hi
    simp only [PiecesOk] at h
    cases i with
    | zero => simpa [recordsRefLen] using h.1
    | succ j =>
      have := ih _ h.2 j (by simpa using Nat.lt_of_succ_lt_succ hi)
      simp only [List.get_cons_succ, List.take_succ_cons, recordsRefLen, List.map_cons,
        List.sum_cons] at this ⊢
      rw [this]
      push_cast
      ring

theorem recordsRefLen_take_mono (l : List Record) (i j : Nat) (hij : i ≤ j) :
    recordsRefLen (l.take i) ≤ recordsRefLen (l.take j) := by
  induction l generalizing i j with
  | nil => simp
  | cons p rest ih =>
    cases i with
    | zero => simp [recordsRefLen]
    | succ i' =>
      cases j with
      | zero => omega
      | succ j' =>
        simp only [List.take_succ_cons, recordsRefLen, List.map_cons, List.sum_cons]
        have := ih i' j' (Nat.succ_le_succ_iff.mp hij)
        simp only [recordsRefLen] at this
        omega

/-- Invariant of the chopping state machine.  `qs0` is the initial global
query offset (nonzero only when a leading clip was skipped). -/
def ChopInv (ch : AlignmentChopper) (rec : Record) (qs0 : Nat) (st : ChopState) : Prop :=
  cigarQueryLen st.cigar_string = st.local_query_consumed ∧
  cigarRefLen st.cigar_string = st.local_ref_consumed ∧
  st.local_query_consumed ≤ ch.chunk_size ∧
  st.global_query_offset = qs0 + recordsQueryLen st.pieces ∧
  st.global_ref_offset = recordsRefLen st.pieces ∧
  (∀ p ∈ st.pieces, cigarQueryLen p.cigar = ch.chunk_size) ∧
  PiecesOk rec.pos st.pieces ∧
  NamesOk rec.qname 0 st.pieces

theorem ChopInv_initState (ch : AlignmentChopper) (rec : Record) (qs0 : Nat) :
    ChopInv ch rec qs0 { initState with global_query_offset := qs0 } := by
  refine ⟨rfl, rfl, Nat.zero_le _, ?_, rfl, ?_, trivial, trivial⟩
  · simp [initState, recordsQueryLen]
  · intro p hp; simp [initState] at hp

theorem add_chunk_record_some (ch : AlignmentChopper) (rec : Record)
    (pieces : List Record) (cs : List Cigar) (refOff qo tr : Nat) (last : Bool)
    (r : Record) (h : add_chunk_record ch rec pieces cs refOff qo tr last = some r) :
    r.cigar = cs ∧ r.pos = rec.pos + (refOff : Int) ∧
    r.qname = rec.qname ++ "-" ++ toString pieces.length := by
  simp only [add_chunk_record] at h
  repeat' split at h
  all_goals first
    | (exact Option.noConfusion h)
    | (injection h with h; subst h; exact ⟨rfl, rfl, rfl⟩)

theorem recordsQueryLen_singleton (r : Record) :
    recordsQueryLen [r] = cigarQueryLen r.cigar := by
  simp [recordsQueryLen]

theorem recordsRefLen_singleton (r : Record) :
    recordsRefLen [r] = cigarRefLen r.cigar := by
  simp [recordsRefLen]

theorem emitStep_inv (ch : AlignmentChopper) (rec : Record) (tr qs0 : Nat)
    (st st' : ChopState)
    (hfull : st.local_query_consumed = ch.chunk_size)
    (hInv : ChopInv ch rec qs0 st)
    (h : emitStep ch rec tr st = some st') :
    ChopInv ch rec qs0 st' ∧
    st'.cigar_string = [] ∧
    st'.local_query_consumed = 0 ∧
    st'.local_ref_consumed = 0 ∧
    st'.pieces.length = st.pieces.length + 1 ∧
    recordsQueryLen st'.pieces = recordsQueryLen st.pieces + st.local_query_consumed ∧
    recordsRefLen st'.pieces = recordsRefLen st.pieces + st.local_ref_consumed ∧
    st'.global_query_offset = st.global_query_offset + st.local_query_consumed ∧
    st'.global_ref_offset = st.global_ref_offset + st.local_ref_consumed := by
  obtain ⟨h1, h2, h3, h4, h5, h6, h7, h8⟩ := hInv
  unfold emitStep at h
  cases hA : add_chunk_record ch rec st.pieces st.cigar_string st.global_ref_offset
      st.global_query_offset tr false with
  | none => rw [hA] at h; cases h
  | some r =>
    rw [hA] at h
    injection h with h
    subst h
    obtain ⟨hcig, hpos, hname⟩ := add_chunk_record_some _ _ _ _ _ _ _ _ _ hA
    have hrq : cigarQueryLen r.cigar = st.local_query_consumed := by rw [hcig, h1]
    have hrr : cigarRefLen r.cigar = st.local_ref_consumed := by rw [hcig, h2]
    refine ⟨⟨rfl, rfl, Nat.zero_le _, ?_, ?_, ?_, ?_, ?_⟩, rfl, rfl, rfl, by simp,
      ?_, ?_, rfl, rfl⟩
    · dsimp only
      rw [recordsQueryLen_append, recordsQueryLen_singleton]
      omega
    · dsimp only
      rw [recordsRefLen_append, recordsRefLen_singleton]
      omega
    · intro p hp
      rcases List.mem_append.mp hp with hp | hp
      · exact h6 p hp
      · rcases List.mem_singleton.mp hp with rfl
        rw [hrq, hfull]
    · exact PiecesOk_append_singleton _ _ _ h7 (by rw [hpos, h5])
    · exact NamesOk_append_singleton _ _ _ _ h8 (by rw [hname]; norm_num)
    · rw [recordsQueryLen_append, recordsQueryLen_singleton]
      omega
    · rw [recordsRefLen_append, recordsRefLen_singleton]
      omega

theorem ChopInv_push_reset (ch : AlignmentChopper) (rec : Record) (qs0 : Nat)
    (st1 : ChopState) (c_buf : Cigar)
    (hInv1 : ChopInv ch rec qs0 st1) (hcs1 : st1.cigar_string = [])
    (hlq1 : st1.local_query_consumed = 0) (hlr1 : st1.local_ref_consumed = 0) :
    ChopInv ch rec qs0 (pushConsume st1 (consume_cigar c_buf ch.chunk_size)) := by
  obtain ⟨h1, h2, h3, h4, h5, h6, h7, h8⟩ := hInv1
  refine ⟨?_, ?_, ?_, h4, h5, h6, h7, h8⟩
  · show cigarQueryLen (st1.cigar_string ++ [(consume_cigar c_buf ch.chunk_size).left_c]) = _
    rw [hcs1, List.nil_append, cigarQueryLen_cons, cigarQueryLen_nil,
      consume_left_queryLen]
    show _ = st1.local_query_consumed + _
    omega
  · show cigarRefLen (st1.cigar_string ++ [(consume_cigar c_buf ch.chunk_size).left_c]) = _
    rw [hcs1, List.nil_append, cigarRefLen_cons, cigarRefLen_nil, consume_left_refLen]
    show _ = st1.local_ref_consumed + _
    omega
  · show st1.local_query_consumed + (consume_cigar c_buf ch.chunk_size).query_offset ≤ _
    have := consume_query_le c_buf ch.chunk_size
    omega

theorem innerWhile_inv (ch : AlignmentChopper) (rec : Record) (tr qs0 : Nat) :
    ∀ (fuel : Nat) (st : ChopState) (c_buf : Cigar) (st' : ChopState),
    st.local_query_consumed = ch.chunk_size →
    ChopInv ch rec qs0 st →
    innerWhile ch rec tr fuel st c_buf = some st' →
    ChopInv ch rec qs0 st' ∧
    recordsQueryLen st'.pieces + st'.local_query_consumed
      = recordsQueryLen st.pieces + st.local_query_consumed + c_buf.queryLen ∧
    recordsRefLen st'.pieces + st'.local_ref_consumed
      = recordsRefLen st.pieces + st.local_ref_consumed + c_buf.refLen := by
  intro fuel
  induction fuel with
  | zero => intro st c_buf st' _ _ h; cases h
  | succ fuel ih =>
    intro st c_buf st' hfull hInv h
    simp only [innerWhile] at h
    cases hE : emitStep ch rec tr st with
    | none => simp only [hE] at h; cases h
    | some st1 =>
      simp only [hE] at h
      obtain ⟨hInv1, hcs1, hlq1, hlr1, _hlen1, hQ1, hR1, _hg1, _hg2⟩ :=
        emitStep_inv ch rec tr qs0 st st1 hfull hInv hE
      rw [hlq1, Nat.sub_zero] at h
      have hInv2 := ChopInv_push_reset ch rec qs0 st1 c_buf hInv1 hcs1 hlq1 hlr1
      have hql := consume_query_add c_buf ch.chunk_size
      have hrl := consume_ref_add c_buf ch.chunk_size
      cases hRc : (consume_cigar c_buf ch.chunk_size).right_c with
      | none =>
        simp only [hRc] at h
        injection h with h
        subst h
        simp only [hRc, optQueryLen] at hql
        simp only [hRc, optRefLen] at hrl
        refine ⟨hInv2, ?_, ?_⟩
        · show recordsQueryLen st1.pieces
            + (st1.local_query_consumed + (consume_cigar c_buf ch.chunk_size).query_offset) = _
          omega
        · show recordsRefLen st1.pieces
            + (st1.local_ref_consumed + (consume_cigar c_buf ch.chunk_size).ref_offset) = _
          omega
      | some c2 =>
        simp only [hRc] at h
        have hqo := consume_right_query c_buf ch.chunk_size c2 hRc
        have hfull2 : (pushConsume st1 (consume_cigar c_buf ch.chunk_size)).local_query_consumed
            = ch.chunk_size := by
          show st1.local_query_consumed + _ = _
          omega
        obtain ⟨hInv', hacc_q, hacc_r⟩ := ih _ c2 st' hfull2 hInv2 h
        simp only [hRc, optQueryLen] at hql
        simp only [hRc, optRefLen] at hrl
        refine ⟨hInv', ?_, ?_⟩
        · have : (pushConsume st1 (consume_cigar c_buf ch.chunk_size)).pieces = st1.pieces := rfl
          rw [this] at hacc_q
          have h2 : (pushConsume st1 (consume_cigar c_buf ch.chunk_size)).local_query_consumed
              = st1.local_query_consumed + (consume_cigar c_buf ch.chunk_size).query_offset := rfl
          rw [h2] at hacc_q
          omega
        · have : (pushConsume st1 (consume_cigar c_buf ch.chunk_size)).pieces = st1.pieces := rfl
          rw [this] at hacc_r
          have h2 : (pushConsume st1 (consume_cigar c_buf ch.chunk_size)).local_ref_consumed
              = st1.local_ref_consumed + (consume_cigar c_buf ch.chunk_size).ref_offset := rfl
          rw [h2] at hacc_r
          omega

theorem ChopInv_push (ch : AlignmentChopper) (rec : Record) (qs0 : Nat)
    (st : ChopState) (c : Cigar) (hInv : ChopInv ch rec qs0 st) :
    ChopInv ch rec qs0
      (pushConsume st (consume_cigar c (ch.chunk_size - st.local_query_consumed))) := by
  obtain ⟨h1, h2, h3, h4, h5, h6, h7, h8⟩ := hInv
  refine ⟨?_, ?_, ?_, h4, h5, h6, h7, h8⟩
  · show cigarQueryLen (st.cigar_string ++ [_]) = st.local_query_consumed + _
    rw [cigarQueryLen_append, cigarQueryLen_cons, cigarQueryLen_nil, consume_left_queryLen, h1]
    omega
  · show cigarRefLen (st.cigar_string ++ [_]) = st.local_ref_consumed + _
    rw [cigarRefLen_append, cigarRefLen_cons, cigarRefLen_nil, consume_left_refLen, h2]
    omega
  · show st.local_query_consumed + _ ≤ ch.chunk_size
    have := consume_query_le c (ch.chunk_size - st.local_query_consumed)
    omega

theorem processOp_inv (ch : AlignmentChopper) (rec : Record) (tr qs0 : Nat)
    (st : ChopState) (c : Cigar) (st' : ChopState)
    (hInv : ChopInv ch rec qs0 st)
    (h : processOp ch rec tr st c = some st') :
    ChopInv ch rec qs0 st' ∧
    recordsQueryLen st'.pieces + st'.local_query_consumed
      = recordsQueryLen st.pieces + st.local_query_consumed + c.queryLen ∧
    recordsRefLen st'.pieces + st'.local_ref_consumed
      = recordsRefLen st.pieces + st.local_ref_consumed + c.refLen := by
  have hle := (hInv.2.2.1 : st.local_query_consumed ≤ ch.chunk_size)
  have hpush := ChopInv_push ch rec qs0 st c hInv
  have hpp : (pushConsume st (consume_cigar c (ch.chunk_size - st.local_query_consumed))).pieces
      = st.pieces := rfl
  have hpq : (pushConsume st (consume_cigar c (ch.chunk_size - st.local_query_consumed))).local_query_consumed
      = st.local_query_consumed
        + (consume_cigar c (ch.chunk_size - st.local_query_consumed)).query_offset := rfl
  have hpr : (pushConsume st (consume_cigar c (ch.chunk_size - st.local_query_consumed))).local_ref_consumed
      = st.local_ref_consumed
        + (consume_cigar c (ch.chunk_size - st.local_query_consumed)).ref_offset := rfl
  have hql := consume_query_add c (ch.chunk_size - st.local_query_consumed)
  have hrl := consume_ref_add c (ch.chunk_size - st.local_query_consumed)
  simp only [processOp] at h
  cases hRc : (consume_cigar c (ch.chunk_size - st.local_query_consumed)).right_c with
  | none =>
    simp only [hRc] at h
    simp only [hRc, optQueryLen] at hql
    simp only [hRc, optRefLen] at hrl
    by_cases hfull : (pushConsume st
        (consume_cigar c (ch.chunk_size - st.local_query_consumed))).local_query_consumed
        = ch.chunk_size
    · rw [if_pos hfull] at h
      obtain ⟨hInv', _, hlq', hlr', _, hQ', hR', _, _⟩ :=
        emitStep_inv ch rec tr qs0 _ st' hfull hpush h
      rw [hpp, hpq] at hQ'
      rw [hpp, hpr] at hR'
      exact ⟨hInv', by omega, by omega⟩
    · rw [if_neg hfull] at h
      injection h with h
      subst h
      refine ⟨hpush, ?_, ?_⟩
      · rw [hpp, hpq]; omega
      · rw [hpp, hpr]; omega
  | some c_buf =>
    simp only [hRc] at h
    simp only [hRc, optQueryLen] at hql
    simp only [hRc, optRefLen] at hrl
    have hqo := consume_right_query c (ch.chunk_size - st.local_query_consumed) c_buf hRc
    have hfull1 : (pushConsume st
        (consume_cigar c (ch.chunk_size - st.local_query_consumed))).local_query_consumed
        = ch.chunk_size := by rw [hpq]; omega
    obtain ⟨hInv', hacc_q, hacc_r⟩ :=
      innerWhile_inv ch rec tr qs0 (c_buf.opLen + 1) _ c_buf st' hfull1 hpush h
    rw [hpp, hpq] at hacc_q
    rw [hpp, hpr] at hacc_r
    exact ⟨hInv', by omega, by omega⟩

theorem foldOps_inv (ch : AlignmentChopper) (rec : Record) (tr qs0 : Nat) :
    ∀ (ops : List Cigar) (st st' : ChopState),
    ChopInv ch rec qs0 st →
    foldOps ch rec tr st ops = some st' →
    ChopInv ch rec qs0 st' ∧
    recordsQueryLen st'.pieces + st'.local_query_consumed
      = recordsQueryLen st.pieces + st.local_query_consumed + cigarQueryLen ops ∧
    recordsRefLen st'.pieces + st'.local_ref_consumed
      = recordsRefLen st.pieces + st.local_ref_consumed + cigarRefLen ops := by
  intro ops
  induction ops with
  | nil =>
    intro st st' hInv h
    simp only [foldOps] at h
    injection h with h
    subst h
    refine ⟨hInv, ?_, ?_⟩
    · rw [cigarQueryLen_nil]
      omega
    · rw [cigarRefLen_nil]
      omega
  | cons c cs ih =>
    intro st st' hInv h
    simp only [foldOps] at h
    cases hP : processOp ch rec tr st c with
    | none => simp only [hP] at h; cases h
    | some st1 =>
      simp only [hP] at h
      obtain ⟨hInv1, hq1, hr1⟩ := processOp_inv ch rec tr qs0 st c st1 hInv hP
      obtain ⟨hInv', hq', hr'⟩ := ih st1 st' hInv1 h
      refine ⟨hInv', ?_, ?_⟩
      · rw [cigarQueryLen_cons]; omega
      · rw [cigarRefLen_cons]; omega

theorem trimTrailingRev_false (m : List Cigar) : trimTrailingRev false m = (m, 0) := by
  cases m <;> simp [trimTrailingRev]

theorem trimTrailing_false (l : List Cigar) : trimTrailing false l = (l, 0) := by
  unfold trimTrailing
  rw [trimTrailingRev_false]
  simp

/-- Measurement helper for claim C3, over the reversed CIGAR: query bases
carried by the trailing clip operations that the trimming loop pops. -/
def trailingDroppedQRev (skip : Bool) : List Cigar → Nat
  | [] => 0
  | c :: rest => if skip ∧ c.isClip then c.queryLen + trailingDroppedQRev skip rest else 0

/-- Measurement for claim C3: query (sequence) bases dropped by the
trailing-clip trimming of `chop_read` (soft-clip lengths only; hard clips
carry no stored bases). -/
def trailingDroppedQ (skip : Bool) (l : List Cigar) : Nat :=
  trailingDroppedQRev skip l.reverse

theorem trimTrailingRev_queryLen (skip : Bool) (m : List Cigar) :
    cigarQueryLen (trimTrailingRev skip m).1 + trailingDroppedQRev skip m
      = cigarQueryLen m := by
  induction m with
  | nil => simp [trimTrailingRev, trailingDroppedQRev]
  | cons c rest ih =>
    simp only [trimTrailingRev, trailingDroppedQRev]
    by_cases hc : skip = true ∧ c.isClip = true
    · rw [if_pos hc, if_pos hc]
      dsimp only
      rw [cigarQueryLen_cons]
      omega
    · rw [if_neg hc, if_neg hc]
      dsimp only
      omega

theorem trimTrailing_queryLen (skip : Bool) (l : List Cigar) :
    cigarQueryLen (trimTrailing skip l).1 + trailingDroppedQ skip l = cigarQueryLen l := by
  unfold trimTrailing trailingDroppedQ
  dsimp only
  rw [cigarQueryLen_reverse]
  rw [trimTrailingRev_queryLen]
  exact cigarQueryLen_reverse l

/-- Measurement for claim C3: query bases dropped by skipping a leading clip
operation (the full length of the dropped operation; zero for a hard clip). -/
def leadDroppedQ (ch : AlignmentChopper) (rec : Record) : Nat :=
  match (trimTrailing ch.skip_clipped_bases rec.cigar).1 with
  | [] => 0
  | c0 :: _ =>
    if ch.skip_clipped_bases ∧ (consume_cigar c0 ch.chunk_size).left_c.isClip then
      c0.queryLen
    else 0

theorem chopCore_inv (ch : AlignmentChopper) (rec : Record) (st : ChopState)
    (h : chopCore ch rec = some st) :
    (∃ qs0, ChopInv ch rec qs0 st) ∧
    recordsQueryLen st.pieces + st.local_query_consumed + leadDroppedQ ch rec
      = cigarQueryLen (trimTrailing ch.skip_clipped_bases rec.cigar).1 := by
  simp only [chopCore] at h
  cases hW : (trimTrailing ch.skip_clipped_bases rec.cigar).1 with
  | nil =>
    rw [hW] at h
    injection h with h
    subst h
    refine ⟨⟨0, ?_⟩, ?_⟩
    · exact ChopInv_initState ch rec 0
    · simp [initState, recordsQueryLen, leadDroppedQ, hW, cigarQueryLen_nil]
  | cons c0 rest =>
    rw [hW] at h
    dsimp only at h
    by_cases hskip : ch.skip_clipped_bases = true
        ∧ (consume_cigar c0 ch.chunk_size).left_c.isClip = true
    · rw [if_pos hskip] at h
      obtain ⟨hInv', hq', _⟩ := foldOps_inv ch rec _ ((consume_cigar c0 ch.chunk_size).query_offset)
        rest _ st (ChopInv_initState ch rec _) h
      refine ⟨⟨_, hInv'⟩, ?_⟩
      have hl : leadDroppedQ ch rec = c0.queryLen := by
        unfold leadDroppedQ
        rw [hW]
        dsimp only
        rw [if_pos hskip]
      rw [hl, cigarQueryLen_cons]
      simp only [initState, recordsQueryLen_nil] at hq'
      omega
    · rw [if_neg hskip] at h
      obtain ⟨hInv', hq', _⟩ := foldOps_inv ch rec _ 0 (c0 :: rest) _ st
        (ChopInv_initState ch rec 0) h
      refine ⟨⟨0, hInv'⟩, ?_⟩
      have hl : leadDroppedQ ch rec = 0 := by
        unfold leadDroppedQ
        rw [hW]
        dsimp only
        rw [if_neg hskip]
      rw [hl]
      simp only [initState, recordsQueryLen_nil] at hq'
      omega

/-- Decomposition of a successful `chop_read` call into its main pass and its
final min-length emission. -/
theorem chop_read_cases (ch : AlignmentChopper) (rec : Record) (frags : List Record)
    (h : chop_read ch rec = some frags) :
    ∃ st, chopCore ch rec = some st ∧
      ((ch.min_length ≤ st.local_query_consumed ∧
        ∃ r, add_chunk_record ch rec st.pieces st.cigar_string st.global_ref_offset
          st.global_query_offset (trimTrailing ch.skip_clipped_bases rec.cigar).2 true
            = some r ∧
          frags = st.pieces ++ [r]) ∨
       (st.local_query_consumed < ch.min_length ∧ frags = st.pieces)) := by
  unfold chop_read at h
  cases hC : chopCore ch rec with
  | none => rw [hC] at h; cases h
  | some st =>
    rw [hC] at h
    refine ⟨st, rfl, ?_⟩
    simp only [finalStep] at h
    by_cases hm : ch.min_length ≤ st.local_query_consumed
    · rw [if_pos hm] at h
      cases hA : add_chunk_record ch rec st.pieces st.cigar_string st.global_ref_offset
          st.global_query_offset (trimTrailing ch.skip_clipped_bases rec.cigar).2 true with
      | none => rw [hA] at h; cases h
      | some r =>
        rw [hA] at h
        injection h with h
        exact Or.inl ⟨hm, r, rfl, h.symm⟩
    · rw [if_neg hm] at h
      injection h with h
      exact Or.inr ⟨by omega, h.symm⟩

/-- Claim C2, modelled from its wording: the per-kind splitting contract. -/
def SplitSpec (c : Cigar) (room : Nat) : Prop :=
  match c with
  | .Match x =>
    (x > room → consume_cigar c room = ⟨.Match room, some (.Match (x - room)), room, room⟩) ∧
    (x ≤ room → consume_cigar c room = ⟨.Match x, none, x, x⟩)
  | .Equal x =>
    (x > room → consume_cigar c room = ⟨.Equal room, some (.Equal (x - room)), room, room⟩) ∧
    (x ≤ room → consume_cigar c room = ⟨.Equal x, none, x, x⟩)
  | .Diff x =>
    (x > room → consume_cigar c room = ⟨.Diff room, some (.Diff (x - room)), room, room⟩) ∧
    (x ≤ room → consume_cigar c room = ⟨.Diff x, none, x, x⟩)
  | .Ins x =>
    (x > room → consume_cigar c room = ⟨.Ins room, some (.Ins (x - room)), room, 0⟩) ∧
    (x ≤ room → consume_cigar c room = ⟨.Ins x, none, x, 0⟩)
  | .SoftClip x =>
    (x > room → consume_cigar c room
      = ⟨.SoftClip room, some (.SoftClip (x - room)), room, 0⟩) ∧
    (x ≤ room → consume_cigar c room = ⟨.SoftClip x, none, x, 0⟩)
  | .Del x => consume_cigar c room = ⟨.Del x, none, 0, x⟩
  | .RefSkip x => consume_cigar c room = ⟨.RefSkip x, none, 0, x⟩
  | .HardClip x => consume_cigar c room = ⟨.HardClip x, none, 0, 0⟩
  | .Pad x => consume_cigar c room = ⟨.Pad x, none, 0, 0⟩

/-- C2: for every CIGAR operation and every room ≥ 1, `consume_cigar` obeys
the per-kind rules claimed: query-and-reference kinds and query-only kinds
split when their length exceeds the room and are returned whole otherwise,
reference-only kinds never split and consume no query, hard clips and
padding never split and consume nothing; the function is total (its Lean
type is total by construction, mirroring the panic-free Rust match). -/
theorem c2_consume_cigar_spec (c : Cigar) (room : Nat) (_hroom : 1 ≤ room) :
    SplitSpec c room := by
  cases c <;> simp only [SplitSpec, consume_cigar] <;>
    try exact rfl
  all_goals
    constructor <;> intro hx <;>
      first
        | (rw [if_pos (by omega)])
        | (rw [if_neg (by omega)])

/-- Witness for C2 at a concrete operation and room. -/
theorem c2_consume_cigar_spec_witness :
    1 ≤ 4 ∧ SplitSpec (.Match 7) 4 :=
  ⟨by decide, c2_consume_cigar_spec (.Match 7) 4 (by decide)⟩

/-- C8 evidence: the constructor accepts `chunk_size = 0` and returns an
ordinary chopper — there is no configuration-time rejection of any kind
(the claim's required failure does not exist in the code; the resulting
chopper's `chop_read` then loops forever on any record with a
query-consuming operation). -/
theorem c8_new_accepts_zero_chunk :
    AlignmentChopper.new 0 3 true (some ("rg"))
      = { chunk_size := 0, min_length := 3, skip_clipped_bases := true,
          read_group := some ("rg") } := rfl

def c1ch : AlignmentChopper := AlignmentChopper.new 2 5 false none

def c1rec : Record :=
  { qname := "r", seq := [65, 71], qual := [30, 30], cigar := [.Match 2], pos := 0,
    flags := 0, tid := 1, mapq := 60, mtid := -1, mpos := -1, insert_size := 0, aux := [] }

/-- C1 counterexample: with `chunk_size = 2`, `min_length = 5` and CIGAR
`2M`, the run emits exactly one fragment, a full chunk of query length 2;
the trailing remainder (length 0) is below `min_length` and dropped.  The
last emitted fragment therefore has query length 2, which is not in
`[min_length, chunk_size] = [5, 2]`, refuting the claim as stated for
configurations with `min_length > chunk_size`. -/
theorem c1_counterexample :
    (chop_read c1ch c1rec).map (List.map fun r => cigarQueryLen r.cigar) = some [2] ∧
    ¬ c1ch.min_length ≤ 2 := by decide

def c5ch : AlignmentChopper := AlignmentChopper.new 5 0 true none

def c5rec : Record :=
  { qname := "t", seq := [0, 1, 2, 3, 4, 5, 6, 7, 8, 9, 10, 11, 12, 13, 14],
    qual := [0, 1, 2, 3, 4, 5, 6, 7, 8, 9, 10, 11, 12, 13, 14],
    cigar := [.SoftClip 1, .Match 4, .Del 5, .Match 2, .Ins 4, .Equal 1, .SoftClip 3],
    pos := 100, flags := 0, tid := 1, mapq := 60, mtid := -1, mpos := -1,
    insert_size := 0, aux := [] }

/-- Claim C5, modelled from its wording: slice end =
`min(record.length, query_offset + local_query_consumed)`; when `last`,
`trailing_clipped_bases` is subtracted and the result clamped at
`query_offset`. -/
def specSliceEnd (len qo localQ trailing : Nat) (last : Bool) : Nat :=
  let e := min len (qo + localQ)
  if last then max qo (e - trailing) else e

/-- C5 counterexample: on the record of the repository's own
`skip_softclips_test`, the third (last) fragment is built with
`query_offset = 11`, `local_query_consumed = 1` (its CIGAR is `1=`) and
`trailing_clipped_bases = 3`.  The formula of the claim yields slice end 11
(an empty slice), but the code — which uses `chunk_size`, not
`local_query_consumed`, and never clamps — emits the one-byte slice `[11]`
(the repository's unit test asserts exactly this output). -/
theorem c5_counterexample :
    (chop_read c5ch c5rec).map (List.map Record.seq)
      = some [[1, 2, 3, 4, 5], [6, 7, 8, 9, 10], [11]] ∧
    specSliceEnd c5rec.seq.length 11 1 3 true = 11 ∧
    byteSlice c5rec.seq 11 (specSliceEnd c5rec.seq.length 11 1 3 true) = [] ∧
    ([11] : List Nat) ≠ [] := by decide

def c6ch : AlignmentChopper := AlignmentChopper.new 2 0 true none

def c6rec : Record :=
  { qname := "r", seq := [0, 1, 2, 3, 4, 5, 6, 7, 8, 9],
    qual := [0, 1, 2, 3, 4, 5, 6, 7, 8, 9],
    cigar := [.Match 1, .SoftClip 9], pos := 0, flags := 0, tid := 1, mapq := 60,
    mtid := -1, mpos := -1, insert_size := 0, aux := [] }

/-- C6 evidence (code bug): `c6rec` is well formed — its total
query-consuming CIGAR length (1M + 9S = 10) equals its sequence length —
and the configuration has `chunk_size = 2 ≥ 1`, yet `chop_read` hits the
fragment-building error branch: the final fragment's
`slice_end = min(10, 0 + 2) = 2` underflows when the 9 trailing soft-clip
bases are subtracted (`2usize - 9` panics in the Rust source). -/
theorem c6_underflow_reachable :
    cigarQueryLen c6rec.cigar = c6rec.seq.length ∧
    c6rec.qual.length = c6rec.seq.length ∧
    1 ≤ c6ch.chunk_size ∧
    chop_read c6ch c6rec = none := by decide

def c7ch : AlignmentChopper := AlignmentChopper.new 2 0 true none

def c7rec : Record :=
  { qname := "r", seq := [0, 1, 2, 3, 4], qual := [9, 9, 9, 9, 9],
    cigar := [.SoftClip 3, .Match 2], pos := 0, flags := 0, tid := 1, mapq := 60,
    mtid := -1, mpos := -1, insert_size := 0, aux := [] }

/-- C7 evidence (code bug): the record starts with a 3-base soft clip and is
chopped with `skip_clipped_bases = true` and `chunk_size = 2`.  The claim
(and the spec) require `global_query_offset` to advance by the full clip
length 3, so no fragment may contain bytes 0, 1 or 2.  The code advances it
only by `consume_cigar`'s `query_offset`, which is capped at `chunk_size`
(here 2), and silently discards the clip remainder; fragment 0's sequence
is `[2, 3]` and thus contains byte 2, a base of the skipped soft clip. -/
theorem c7_leading_softclip_bug :
    (chop_read c7ch c7rec).map (List.map Record.seq) = some [[2, 3], [4]] ∧
    c7rec.cigar.take 1 = [.SoftClip 3] ∧
    c7rec.seq.take 3 = [0, 1, 2] := by decide

def c9ch : AlignmentChopper := AlignmentChopper.new 5 0 false none

def c9chB : AlignmentChopper := AlignmentChopper.new 6 0 false none

def c9chC : AlignmentChopper := AlignmentChopper.new 6 6 false none

def c9rec : Record :=
  { qname := "r", seq := [0, 1, 2, 3, 4], qual := [7, 7, 7, 7, 7],
    cigar := [.Match 5], pos := 3, flags := 0, tid := 1, mapq := 60,
    mtid := -1, mpos := -1, insert_size := 0, aux := [("NM", "0")] }

/-- C9 counterexample: for the well-formed 5-base record `c9rec`,
(i) `chunk_size = 5 = record length` yields TWO fragments (`r-0` plus a
trailing empty `r-1`), not one; (ii) with `chunk_size = 6 > length` exactly
one fragment is produced but its auxiliary data is dropped (`[]` versus the
input's `NM` tag), so it is not identical to the input; (iii) with
`min_length = 6 > record length` no fragment is produced at all. -/
theorem c9_counterexample :
    (chop_read c9ch c9rec).map (List.map Record.qname) = some ["r-0", "r-1"] ∧
    (chop_read c9chB c9rec).map (List.map Record.aux) = some [[]] ∧
    c9rec.aux ≠ [] ∧
    chop_read c9chC c9rec = some [] := by decide

def c10ch : AlignmentChopper := AlignmentChopper.new 5 0 false none

def c10recA : Record :=
  { qname := "r", seq := [0, 1, 2, 3, 4, 5, 6, 7, 8, 9],
    qual := [0, 1, 2, 3, 4, 5, 6, 7, 8, 9], cigar := [.Match 10], pos := 0,
    flags := 0, tid := 1, mapq := 60, mtid := -1, mpos := -1, insert_size := 0,
    aux := [] }

def c10recB : Record :=
  { qname := "r", seq := [0, 1, 2, 3, 4], qual := [0, 1, 2, 3, 4],
    cigar := [.Match 5, .Del 3], pos := 0, flags := 0, tid := 1, mapq := 60,
    mtid := -1, mpos := -1, insert_size := 0, aux := [] }

def c10recC : Record :=
  { qname := "r", seq := [0, 1, 2, 3, 4, 5, 6], qual := [0, 1, 2, 3, 4, 5, 6],
    cigar := [.Match 5], pos := 0, flags := 0, tid := 1, mapq := 60,
    mtid := -1, mpos := -1, insert_size := 0, aux := [] }

/-- C10 counterexample, three refutations of the claim as stated
(min_length = 0, skip = false, total query length a positive multiple of
chunk_size = 5): (i) CIGAR `10M` (query length 10 = 2·5) yields only TWO
fragments, not 10/5 + 1 = 3, because a single operation spanning several
chunks leaves the inner loop with `local_query_consumed = chunk_size` and
the last half-chunk is emitted by the final step instead of mid-pass;
(ii) CIGAR `5M 3D` yields an extra fragment whose CIGAR is `[3D]`, not
empty; (iii) a record with CIGAR `5M` but 7 stored bases yields an extra
fragment with a NON-empty sequence slice `[5, 6]`. -/
theorem c10_counterexample :
    cigarQueryLen c10recA.cigar = 2 * c10ch.chunk_size ∧
    (chop_read c10ch c10recA).map (List.map Record.qname) = some ["r-0", "r-1"] ∧
    (chop_read c10ch c10recB).map (List.map Record.cigar)
      = some [[.Match 5], [.Del 3]] ∧
    (chop_read c10ch c10recC).map (List.map Record.seq)
      = some [[0, 1, 2, 3, 4], [5, 6]] := by decide

/-- C5 (amended): the fragment builder's slice end is
`min(record.length, query_offset + chunk_size)` — `chunk_size`, not
`local_query_consumed` — and for the last fragment `trailing_clipped_bases`
is subtracted WITHOUT clamping: building fails (the source panics) exactly
when that subtraction underflows or the resulting end lies outside
`[query_offset, quality length]`. -/
theorem c5_amended (ch : AlignmentChopper) (rec : Record) (pieces : List Record)
    (cs : List Cigar) (refOff qo tr : Nat) (last : Bool) :
    (∀ r, add_chunk_record ch rec pieces cs refOff qo tr last = some r →
      r.seq = byteSlice rec.seq qo
        (if last then min rec.seq.length (qo + ch.chunk_size) - tr
         else min rec.seq.length (qo + ch.chunk_size)) ∧
      r.qual = byteSlice rec.qual qo
        (if last then min rec.seq.length (qo + ch.chunk_size) - tr
         else min rec.seq.length (qo + ch.chunk_size))) ∧
    (add_chunk_record ch rec pieces cs refOff qo tr last = none ↔
      ((last = true ∧ min rec.seq.length (qo + ch.chunk_size) < tr) ∨
       ¬ (qo ≤ (if last then min rec.seq.length (qo + ch.chunk_size) - tr
                else min rec.seq.length (qo + ch.chunk_size)) ∧
          (if last then min rec.seq.length (qo + ch.chunk_size) - tr
           else min rec.seq.length (qo + ch.chunk_size)) ≤ rec.qual.length))) := by
  constructor
  · intro r h
    simp only [add_chunk_record] at h
    repeat' split at h
    all_goals first
      | (exact Option.noConfusion h)
      | (injection h with h; subst h; constructor <;> simp_all)
  · simp only [add_chunk_record]
    by_cases h1 : last = true ∧ min rec.seq.length (qo + ch.chunk_size) < tr
    · rw [if_pos h1]
      exact ⟨fun _ => Or.inl h1, fun _ => rfl⟩
    · rw [if_neg h1]
      by_cases h2 : qo ≤ (if last = true then min rec.seq.length (qo + ch.chunk_size) - tr
            else min rec.seq.length (qo + ch.chunk_size)) ∧
          (if last = true then min rec.seq.length (qo + ch.chunk_size) - tr
           else min rec.seq.length (qo + ch.chunk_size)) ≤ rec.qual.length
      · rw [if_pos h2]
        constructor
        · intro hfalse
          exact Option.noConfusion hfalse
        · intro hOr
          rcases hOr with hx | hx
          · exact absurd hx h1
          · exact absurd h2 hx
      · rw [if_neg h2]
        exact ⟨fun _ => Or.inr h2, fun _ => rfl⟩

/-- C1 (amended): for configurations with `min_length ≤ chunk_size` (when
`min_length > chunk_size` the trailing fragment is never emitted and the last
emitted fragment is a full chunk shorter than `min_length`, refuting the
original claim — see the counterexample): every emitted fragment except
possibly the last has query-consuming CIGAR length exactly `chunk_size`; the
last emitted fragment has query-consuming length in
`[min_length, chunk_size]`; and after the main pass the final fragment is
emitted if and only if `local_query_consumed ≥ min_length`, the remainder
being dropped silently (no fragment, no error) otherwise. -/
theorem c1_chunk_bound (ch : AlignmentChopper) (rec : Record) (frags : List Record)
    (hmin : ch.min_length ≤ ch.chunk_size)
    (h : chop_read ch rec = some frags) :
    (∀ i (hi : i + 1 < frags.length),
      cigarQueryLen (frags.get ⟨i, Nat.lt_of_succ_lt hi⟩).cigar = ch.chunk_size) ∧
    (∀ r, frags.getLast? = some r →
      ch.min_length ≤ cigarQueryLen r.cigar ∧ cigarQueryLen r.cigar ≤ ch.chunk_size) ∧
    (∀ st, chopCore ch rec = some st →
      (ch.min_length ≤ st.local_query_consumed → frags.length = st.pieces.length + 1) ∧
      (st.local_query_consumed < ch.min_length → frags = st.pieces)) := by
  obtain ⟨st, hC, hcase⟩ := chop_read_cases ch rec frags h
  obtain ⟨⟨qs0, hInv⟩, _⟩ := chopCore_inv ch rec st hC
  obtain ⟨h1, h2, h3, h4, h5, h6, h7, h8⟩ := hInv
  have hcore : ∀ st2, chopCore ch rec = some st2 → st2 = st := by
    intro st2 hC2
    rw [hC] at hC2
    injection hC2 with hC2
    exact hC2.symm
  rcases hcase with ⟨hm, r, hA, rfl⟩ | ⟨hm, rfl⟩
  · obtain ⟨hcig, _, _⟩ := add_chunk_record_some _ _ _ _ _ _ _ _ _ hA
    have hrq : cigarQueryLen r.cigar = st.local_query_consumed := by rw [hcig]; exact h1
    refine ⟨?_, ?_, ?_⟩
    · intro i hi
      have hlen : (st.pieces ++ [r]).length = st.pieces.length + 1 := by simp
      have hi2 : i < st.pieces.length := by rw [hlen] at hi; omega
      rw [List.get_eq_getElem, List.getElem_append_left hi2]
      exact h6 _ (List.getElem_mem _)
    · intro r' hr'
      rw [List.getLast?_concat] at hr'
      injection hr' with hr'
      subst hr'
      constructor
      · rw [hrq]; exact hm
      · rw [hrq]; exact h3
    · intro st2 hC2
      obtain rfl := hcore st2 hC2
      constructor
      · intro _; simp
      · intro hlt; exact absurd hm (by omega)
  · refine ⟨?_, ?_, ?_⟩
    · intro i hi
      rw [List.get_eq_getElem]
      exact h6 _ (List.getElem_mem _)
    · intro r hr
      have hmem := List.mem_of_getLast?_eq_some hr
      have hfl := h6 r hmem
      constructor <;> omega
    · intro st2 hC2
      obtain rfl := hcore st2 hC2
      constructor
      · intro hge; exact absurd hge (by omega)
      · intro _; rfl

/-- Measurement for claim C3: all query (sequence) bases dropped by
clip-skipping — trailing clip trimming plus leading clip skipping. -/
def clipSkipDroppedQ (ch : AlignmentChopper) (rec : Record) : Nat :=
  trailingDroppedQ ch.skip_clipped_bases rec.cigar + leadDroppedQ ch rec

/-- Measurement for claim C3: query bases dropped by the trailing
min-length filter (the remainder's length when it is below `min_length`). -/
def minFilterDroppedQ (ch : AlignmentChopper) (rec : Record) : Nat :=
  match chopCore ch rec with
  | some st =>
    if st.local_query_consumed < ch.min_length then st.local_query_consumed else 0
  | none => 0

/-- C3: for every well-formed input record (total query-consuming CIGAR
length equal to the stored sequence length, as the spec's data model
requires of `AlignmentRecord`), the query-consuming CIGAR length summed over
all emitted fragments, plus the bases dropped by clip-skipping, plus the
bases dropped by the trailing min-length filter, equals the record's
sequence length. -/
theorem c3_length_conservation (ch : AlignmentChopper) (rec : Record)
    (frags : List Record)
    (hwf : cigarQueryLen rec.cigar = rec.seq.length)
    (h : chop_read ch rec = some frags) :
    recordsQueryLen frags + clipSkipDroppedQ ch rec + minFilterDroppedQ ch rec
      = rec.seq.length := by
  obtain ⟨st, hC, hcase⟩ := chop_read_cases ch rec frags h
  obtain ⟨⟨qs0, hInv⟩, hacc⟩ := chopCore_inv ch rec st hC
  have htrim := trimTrailing_queryLen ch.skip_clipped_bases rec.cigar
  have hmf : minFilterDroppedQ ch rec
      = if st.local_query_consumed < ch.min_length then st.local_query_consumed else 0 := by
    unfold minFilterDroppedQ
    rw [hC]
  unfold clipSkipDroppedQ
  rcases hcase with ⟨hm, r, hA, rfl⟩ | ⟨hm, rfl⟩
  · obtain ⟨hcig, _, _⟩ := add_chunk_record_some _ _ _ _ _ _ _ _ _ hA
    have h1 := hInv.1
    rw [recordsQueryLen_append, recordsQueryLen_singleton, hcig, h1, hmf,
      if_neg (by omega)]
    omega
  · rw [hmf, if_pos hm]
    omega

/-- C4: for every run of `chop_read`, the i-th emitted fragment's position
equals the original record's position plus the sum of the
reference-consuming CIGAR lengths of all previously emitted fragments, and
consequently the positions are non-decreasing in emission order. -/
theorem c4_position_monotonicity (ch : AlignmentChopper) (rec : Record)
    (frags : List Record)
    (h : chop_read ch rec = some frags) :
    (∀ i (hi : i < frags.length),
      (frags.get ⟨i, hi⟩).pos = rec.pos + (recordsRefLen (frags.take i) : Int)) ∧
    (∀ i j (hi : i < frags.length) (hj : j < frags.length), i ≤ j →
      (frags.get ⟨i, hi⟩).pos ≤ (frags.get ⟨j, hj⟩).pos) := by
  obtain ⟨st, hC, hcase⟩ := chop_read_cases ch rec frags h
  obtain ⟨⟨qs0, hInv⟩, _⟩ := chopCore_inv ch rec st hC
  obtain ⟨h1, h2, h3, h4, h5, h6, h7, h8⟩ := hInv
  have hP : PiecesOk rec.pos frags := by
    rcases hcase with ⟨hm, r, hA, rfl⟩ | ⟨hm, rfl⟩
    · obtain ⟨_, hpos, _⟩ := add_chunk_record_some _ _ _ _ _ _ _ _ _ hA
      exact PiecesOk_append_singleton _ _ _ h7 (by rw [hpos, h5])
    · exact h7
  have hget := PiecesOk_get rec.pos frags hP
  refine ⟨hget, ?_⟩
  intro i j hi hj hij
  rw [hget i hi, hget j hj]
  have hmono := recordsRefLen_take_mono frags i j hij
  omega

def c1wch : AlignmentChopper := AlignmentChopper.new 1 0 false none

def c1wrec : Record :=
  { qname := "w", seq := [5], qual := [9], cigar := [.Match 1], pos := 2,
    flags := 4, tid := 1, mapq := 60, mtid := -1, mpos := -1, insert_size := 0,
    aux := [] }

def c1wfrags : List Record :=
  [{ qname := "w-0", seq := [5], qual := [9], cigar := [.Match 1], pos := 2,
     flags := 4, tid := 1, mapq := 60, mtid := -1, mpos := -1, insert_size := 0,
     aux := [] },
   { qname := "w-1", seq := [], qual := [], cigar := [], pos := 3,
     flags := 4, tid := 1, mapq := 60, mtid := -1, mpos := -1, insert_size := 0,
     aux := [] }]

/-- Witness for C1 at a concrete run (chunk_size 1, min_length 0, CIGAR 1M). -/
theorem c1_chunk_bound_witness :
    (c1wch.min_length ≤ c1wch.chunk_size ∧ chop_read c1wch c1wrec = some c1wfrags) ∧
    ((∀ i (hi : i + 1 < c1wfrags.length),
      cigarQueryLen (c1wfrags.get ⟨i, Nat.lt_of_succ_lt hi⟩).cigar = c1wch.chunk_size) ∧
    (∀ r, c1wfrags.getLast? = some r →
      c1wch.min_length ≤ cigarQueryLen r.cigar
        ∧ cigarQueryLen r.cigar ≤ c1wch.chunk_size) ∧
    (∀ st, chopCore c1wch c1wrec = some st →
      (c1wch.min_length ≤ st.local_query_consumed →
        c1wfrags.length = st.pieces.length + 1) ∧
      (st.local_query_consumed < c1wch.min_length → c1wfrags = st.pieces))) :=
  ⟨⟨by decide, by decide⟩, c1_chunk_bound c1wch c1wrec c1wfrags (by decide) (by decide)⟩

def c3wch : AlignmentChopper := AlignmentChopper.new 5 5 true none

def c3wrec : Record :=
  { qname := "t", seq := [0, 1, 2, 3, 4, 5, 6, 7, 8, 9, 10, 11, 12, 13, 14],
    qual := [0, 1, 2, 3, 4, 5, 6, 7, 8, 9, 10, 11, 12, 13, 14],
    cigar := [.SoftClip 1, .Match 4, .Del 5, .Match 2, .Ins 4, .Equal 1, .SoftClip 3],
    pos := 100, flags := 0, tid := 1, mapq := 60, mtid := -1, mpos := -1,
    insert_size := 0, aux := [] }

def c3wfrags : List Record :=
  [{ qname := "t-0", seq := [1, 2, 3, 4, 5], qual := [1, 2, 3, 4, 5],
     cigar := [.Match 4, .Del 5, .Match 1], pos := 100, flags := 0, tid := 1,
     mapq := 60, mtid := -1, mpos := -1, insert_size := 0, aux := [] },
   { qname := "t-1", seq := [6, 7, 8, 9, 10], qual := [6, 7, 8, 9, 10],
     cigar := [.Match 1, .Ins 4], pos := 110, flags := 0, tid := 1,
     mapq := 60, mtid := -1, mpos := -1, insert_size := 0, aux := [] }]

/-- Witness for C3 at a concrete run exercising clip-skipping and the
min-length filter: fragment query lengths 5 + 5, clip-skipped bases 4
(leading 1S + trailing 3S), filtered remainder 1, total 15 = record length. -/
theorem c3_length_conservation_witness :
    (cigarQueryLen c3wrec.cigar = c3wrec.seq.length ∧
      chop_read c3wch c3wrec = some c3wfrags) ∧
    recordsQueryLen c3wfrags + clipSkipDroppedQ c3wch c3wrec
      + minFilterDroppedQ c3wch c3wrec = c3wrec.seq.length :=
  ⟨⟨by decide, by decide⟩,
    c3_length_conservation c3wch c3wrec c3wfrags (by decide) (by decide)⟩

/-- Witness for C4 at a concrete run (fragment positions 100 then 110). -/
theorem c4_position_monotonicity_witness :
    chop_read c3wch c3wrec = some c3wfrags ∧
    ((∀ i (hi : i < c3wfrags.length),
      (c3wfrags.get ⟨i, hi⟩).pos
        = c3wrec.pos + (recordsRefLen (c3wfrags.take i) : Int)) ∧
    (∀ i j (hi : i < c3wfrags.length) (hj : j < c3wfrags.length), i ≤ j →
      (c3wfrags.get ⟨i, hi⟩).pos ≤ (c3wfrags.get ⟨j, hj⟩).pos)) :=
  ⟨by decide, c4_position_monotonicity c3wch c3wrec c3wfrags (by decide)⟩

theorem byteSlice_full (l : List Nat) : byteSlice l 0 l.length = l := by
  simp [byteSlice]

theorem byteSlice_self (l : List Nat) (n : Nat) : byteSlice l n n = [] := by
  unfold byteSlice
  apply List.drop_eq_nil_of_le
  rw [List.length_take]
  omega

theorem foldOps_no_emit (ch : AlignmentChopper) (rec : Record) (tr : Nat) :
    ∀ (ops : List Cigar) (st : ChopState),
    st.local_query_consumed + cigarQueryLen ops < ch.chunk_size →
    foldOps ch rec tr st ops = some
      { st with cigar_string := st.cigar_string ++ ops,
                local_ref_consumed := st.local_ref_consumed + cigarRefLen ops,
                local_query_consumed := st.local_query_consumed + cigarQueryLen ops } := by
  intro ops
  induction ops with
  | nil =>
    intro st hb
    simp [foldOps, cigarQueryLen_nil, cigarRefLen_nil]
  | cons c cs ih =>
    intro st hb
    rw [cigarQueryLen_cons] at hb
    have hfull : c.queryLen ≤ ch.chunk_size - st.local_query_consumed := by omega
    simp only [foldOps, processOp]
    rw [consume_full c _ hfull]
    dsimp only [pushConsume]
    rw [if_neg (show ¬(st.local_query_consumed + c.queryLen = ch.chunk_size) by omega)]
    dsimp only
    rw [ih _ (show st.local_query_consumed + c.queryLen + cigarQueryLen cs < ch.chunk_size
      by omega)]
    congr 1
    dsimp only
    simp only [cigarRefLen_cons, cigarQueryLen_cons, List.append_assoc,
      List.singleton_append, Nat.add_assoc]

/-- C9 (amended): for a well-formed record (total query-consuming CIGAR
length = sequence length = quality length) chopped with
`chunk_size > record length` (strictly — at equality an extra empty
trailing fragment appears when `min_length = 0`), `min_length ≤ record
length` (otherwise no fragment is emitted) and `skip_clipped_bases = false`,
the output is exactly one fragment identical to the input except for the
identifier suffix `-0` and the auxiliary data, which is dropped (replaced by
an RG tag exactly when a read group is configured). -/
theorem c9_amended (ch : AlignmentChopper) (rec : Record)
    (hskip : ch.skip_clipped_bases = false)
    (hwf : cigarQueryLen rec.cigar = rec.seq.length)
    (hq : rec.qual.length = rec.seq.length)
    (hlt : rec.seq.length < ch.chunk_size)
    (hmin : ch.min_length ≤ rec.seq.length) :
    chop_read ch rec = some [{ rec with
      qname := rec.qname ++ "-" ++ toString 0,
      aux := rgAux ch }] := by
  have htrim : trimTrailing ch.skip_clipped_bases rec.cigar = (rec.cigar, 0) := by
    rw [hskip]
    exact trimTrailing_false rec.cigar
  have hw2 : (trimTrailing ch.skip_clipped_bases rec.cigar).2 = 0 := by rw [htrim]
  have hqb : byteSlice rec.qual 0 rec.seq.length = rec.qual := by
    rw [← hq]
    exact byteSlice_full _
  have hadd : add_chunk_record ch rec [] rec.cigar 0 0 0 true
      = some { rec with
          qname := rec.qname ++ "-" ++ toString 0,
          aux := rgAux ch } := by
    have hmm : min rec.seq.length ch.chunk_size = rec.seq.length := by omega
    simp [add_chunk_record, hmm, byteSlice_full, hqb, hq]
  cases hcg : rec.cigar with
  | nil =>
    rw [hcg] at hadd
    have hlen0 : rec.seq.length = 0 := by rw [← hwf, hcg, cigarQueryLen_nil]
    have hw1 : (trimTrailing ch.skip_clipped_bases rec.cigar).1 = [] := by
      rw [htrim]
      exact hcg
    have hcore : chopCore ch rec = some initState := by
      simp only [chopCore, hw1]
    unfold chop_read
    rw [hcore]
    simp only [finalStep, hw2]
    rw [if_pos (show ch.min_length ≤ initState.local_query_consumed by
      show ch.min_length ≤ 0
      omega)]
    have hsc : add_chunk_record ch rec initState.pieces initState.cigar_string
        initState.global_ref_offset initState.global_query_offset 0 true
        = add_chunk_record ch rec [] [] 0 0 0 true := rfl
    rw [hsc, hadd]
    simp [initState]
  | cons c0 rest =>
    rw [hcg] at hadd
    have hbound : initState.local_query_consumed + cigarQueryLen (c0 :: rest)
        < ch.chunk_size := by
      show 0 + cigarQueryLen (c0 :: rest) < ch.chunk_size
      rw [← hcg, hwf]
      omega
    have hcq : cigarQueryLen (c0 :: rest) = rec.seq.length := by rw [← hcg]; exact hwf
    have hw1 : (trimTrailing ch.skip_clipped_bases rec.cigar).1 = c0 :: rest := by
      rw [htrim]
      exact hcg
    have hcore : chopCore ch rec = some { initState with
        cigar_string := c0 :: rest,
        local_ref_consumed := cigarRefLen (c0 :: rest),
        local_query_consumed := cigarQueryLen (c0 :: rest) } := by
      simp only [chopCore, hw1, hw2]
      simp only [hskip, Bool.false_eq_true, false_and, if_false]
      rw [foldOps_no_emit ch rec 0 (c0 :: rest) initState hbound]
      simp [initState]
    unfold chop_read
    rw [hcore]
    simp only [finalStep, hw2]
    rw [if_pos (show ch.min_length ≤ cigarQueryLen (c0 :: rest) by omega)]
    have hsc : add_chunk_record ch rec ([] : List Record) (c0 :: rest) 0 0 0 true
        = add_chunk_record ch rec [] (c0 :: rest) 0 0 0 true := rfl
    rw [show add_chunk_record ch rec
        ({ initState with
          cigar_string := c0 :: rest,
          local_ref_consumed := cigarRefLen (c0 :: rest),
          local_query_consumed := cigarQueryLen (c0 :: rest) } : ChopState).pieces
        ({ initState with
          cigar_string := c0 :: rest,
          local_ref_consumed := cigarRefLen (c0 :: rest),
          local_query_consumed := cigarQueryLen (c0 :: rest) } : ChopState).cigar_string
        ({ initState with
          cigar_string := c0 :: rest,
          local_ref_consumed := cigarRefLen (c0 :: rest),
          local_query_consumed := cigarQueryLen (c0 :: rest) } : ChopState).global_ref_offset
        ({ initState with
          cigar_string := c0 :: rest,
          local_ref_consumed := cigarRefLen (c0 :: rest),
          local_query_consumed := cigarQueryLen (c0 :: rest) } : ChopState).global_query_offset
        0 true = add_chunk_record ch rec [] (c0 :: rest) 0 0 0 true from rfl]
    rw [hadd]
    simp [initState]

def c9wch : AlignmentChopper := AlignmentChopper.new 6 3 false (some ("G1"))

/-- Witness for C9 (amended) at a concrete record with an auxiliary tag and
a configured read group. -/
theorem c9_amended_witness :
    (c9wch.skip_clipped_bases = false ∧ cigarQueryLen c9rec.cigar = c9rec.seq.length ∧
     c9rec.qual.length = c9rec.seq.length ∧ c9rec.seq.length < c9wch.chunk_size ∧
     c9wch.min_length ≤ c9rec.seq.length) ∧
    chop_read c9wch c9rec = some [{ c9rec with
      qname := c9rec.qname ++ "-" ++ toString 0,
      aux := rgAux c9wch }] :=
  ⟨⟨by decide, by decide, by decide, by decide, by decide⟩,
    c9_amended c9wch c9rec (by decide) (by decide) (by decide) (by decide) (by decide)⟩

theorem piecesFull_sum (n : Nat) (l : List Record)
    (hfull : ∀ p ∈ l, cigarQueryLen p.cigar = n) :
    recordsQueryLen l = n * l.length := by
  induction l with
  | nil => simp [recordsQueryLen]
  | cons p rest ih =>
    have hp := hfull p (by simp)
    have hr := ih (fun q hq => hfull q (by simp [hq]))
    simp only [recordsQueryLen, List.map_cons, List.sum_cons, List.length_cons] at hp hr ⊢
    rw [Nat.mul_succ]
    omega

theorem consume_right_isSome (c : Cigar) (amt : Nat) (hlt : amt < c.queryLen) :
    ∃ rem, (consume_cigar c amt).right_c = some rem
      ∧ rem.queryLen = c.queryLen - amt := by
  cases c <;> simp only [Cigar.queryLen] at hlt <;>
    first
      | exact absurd hlt (Nat.not_lt_zero _)
      | (simp only [consume_cigar, Cigar.queryLen]
         rw [if_pos hlt]
         exact ⟨_, rfl, rfl⟩)

theorem emitStep_some (ch : AlignmentChopper) (rec : Record) (tr : Nat) (st : ChopState)
    (hqo : st.global_query_offset ≤ rec.seq.length)
    (hql : rec.qual.length = rec.seq.length) :
    ∃ st1, emitStep ch rec tr st = some st1 := by
  unfold emitStep
  have hA : add_chunk_record ch rec st.pieces st.cigar_string st.global_ref_offset
      st.global_query_offset tr false
      = some { qname := rec.qname ++ "-" ++ toString st.pieces.length,
               seq := byteSlice rec.seq st.global_query_offset
                 (min rec.seq.length (st.global_query_offset + ch.chunk_size)),
               qual := byteSlice rec.qual st.global_query_offset
                 (min rec.seq.length (st.global_query_offset + ch.chunk_size)),
               cigar := st.cigar_string,
               pos := rec.pos + (st.global_ref_offset : Int),
               flags := rec.flags, tid := rec.tid, mapq := rec.mapq,
               mtid := rec.mtid, mpos := rec.mpos, insert_size := rec.insert_size,
               aux := rgAux ch } := by
    simp only [add_chunk_record, Bool.false_eq_true, false_and, if_false]
    rw [if_pos (by constructor <;> omega)]
  rw [hA]
  exact ⟨_, rfl⟩

theorem processOp_strict (ch : AlignmentChopper) (rec : Record) (tr : Nat)
    (st : ChopState) (c : Cigar)
    (hch : 1 ≤ ch.chunk_size)
    (hql : rec.qual.length = rec.seq.length)
    (hInv : ChopInv ch rec 0 st)
    (hlt : st.local_query_consumed < ch.chunk_size)
    (hc : c.queryLen ≤ ch.chunk_size)
    (hbound : st.global_query_offset + st.local_query_consumed + c.queryLen
      ≤ rec.seq.length) :
    ∃ st', processOp ch rec tr st c = some st' ∧ ChopInv ch rec 0 st' ∧
      st'.local_query_consumed < ch.chunk_size ∧
      st'.global_query_offset + st'.local_query_consumed
        = st.global_query_offset + st.local_query_consumed + c.queryLen ∧
      (1 ≤ c.queryLen →
        (st'.cigar_string = [] ∧ st'.local_query_consumed = 0)
          ∨ 1 ≤ st'.local_query_consumed) := by
  have hpush := ChopInv_push ch rec 0 st c hInv
  by_cases hsplit : c.queryLen ≤ ch.chunk_size - st.local_query_consumed
  · have hcf := consume_full c (ch.chunk_size - st.local_query_consumed) hsplit
    have hP : processOp ch rec tr st c
        = (if st.local_query_consumed + c.queryLen = ch.chunk_size then
            emitStep ch rec tr
              (pushConsume st (consume_cigar c (ch.chunk_size - st.local_query_consumed)))
           else
            some (pushConsume st
              (consume_cigar c (ch.chunk_size - st.local_query_consumed)))) := by
      simp only [processOp, hcf]
      rfl
    have hpq : (pushConsume st
        (consume_cigar c (ch.chunk_size - st.local_query_consumed))).local_query_consumed
        = st.local_query_consumed + c.queryLen := by
      show st.local_query_consumed
        + (consume_cigar c (ch.chunk_size - st.local_query_consumed)).query_offset = _
      rw [hcf]
    have hpg : (pushConsume st
        (consume_cigar c (ch.chunk_size - st.local_query_consumed))).global_query_offset
        = st.global_query_offset := rfl
    by_cases hfull : st.local_query_consumed + c.queryLen = ch.chunk_size
    · rw [hP, if_pos hfull]
      obtain ⟨st1, hE⟩ := emitStep_some ch rec tr _ (by rw [hpg]; omega) hql
      have hfull1 : (pushConsume st
          (consume_cigar c (ch.chunk_size - st.local_query_consumed))).local_query_consumed
          = ch.chunk_size := by rw [hpq]; exact hfull
      obtain ⟨hInv1, hcs1, hlq1, _, _, _, _, hg1, _⟩ :=
        emitStep_inv ch rec tr 0 _ st1 hfull1 hpush hE
      refine ⟨st1, hE, hInv1, ?_, ?_, ?_⟩
      · rw [hlq1]; omega
      · rw [hg1, hpg, hpq, hlq1]; omega
      · intro _; exact Or.inl ⟨hcs1, hlq1⟩
    · rw [hP, if_neg hfull]
      refine ⟨_, rfl, hpush, ?_, ?_, ?_⟩
      · rw [hpq]; omega
      · rw [hpg, hpq]; omega
      · intro h1; right; rw [hpq]; omega
  · have hlt2 : ch.chunk_size - st.local_query_consumed < c.queryLen := by omega
    obtain ⟨rem, hrem, hremq⟩ := consume_right_isSome c _ hlt2
    have hqo := consume_right_query c _ rem hrem
    have hpq : (pushConsume st
        (consume_cigar c (ch.chunk_size - st.local_query_consumed))).local_query_consumed
        = st.local_query_consumed + (ch.chunk_size - st.local_query_consumed) := by
      show st.local_query_consumed
        + (consume_cigar c (ch.chunk_size - st.local_query_consumed)).query_offset = _
      rw [hqo]
    have hpg : (pushConsume st
        (consume_cigar c (ch.chunk_size - st.local_query_consumed))).global_query_offset
        = st.global_query_offset := rfl
    have hfull1 : (pushConsume st
        (consume_cigar c (ch.chunk_size - st.local_query_consumed))).local_query_consumed
        = ch.chunk_size := by rw [hpq]; omega
    have hP : processOp ch rec tr st c
        = innerWhile ch rec tr (rem.opLen + 1)
            (pushConsume st (consume_cigar c (ch.chunk_size - st.local_query_consumed)))
            rem := by
      simp only [processOp, hrem]
    obtain ⟨st2, hE⟩ := emitStep_some ch rec tr _ (by rw [hpg]; omega) hql
    obtain ⟨hInv2, hcs2, hlq2, hlr2, _, _, _, hg2, _⟩ :=
      emitStep_inv ch rec tr 0 _ st2 hfull1 hpush hE
    have hle2 : rem.queryLen ≤ ch.chunk_size - st2.local_query_consumed := by
      rw [hlq2]; omega
    have hcf2 := consume_full rem (ch.chunk_size - st2.local_query_consumed) hle2
    have hIW : innerWhile ch rec tr (rem.opLen + 1)
        (pushConsume st (consume_cigar c (ch.chunk_size - st.local_query_consumed))) rem
        = some (pushConsume st2 (consume_cigar rem
            (ch.chunk_size - st2.local_query_consumed))) := by
      simp only [innerWhile, hE, hcf2]
    have hInv3 : ChopInv ch rec 0 (pushConsume st2 (consume_cigar rem
        (ch.chunk_size - st2.local_query_consumed))) :=
      ChopInv_push ch rec 0 st2 rem hInv2
    have hpq3 : (pushConsume st2 (consume_cigar rem
        (ch.chunk_size - st2.local_query_consumed))).local_query_consumed
        = st2.local_query_consumed + rem.queryLen := by
      show st2.local_query_consumed + (consume_cigar rem
        (ch.chunk_size - st2.local_query_consumed)).query_offset = _
      rw [hcf2]
    have hpg3 : (pushConsume st2 (consume_cigar rem
        (ch.chunk_size - st2.local_query_consumed))).global_query_offset
        = st2.global_query_offset := rfl
    refine ⟨_, by rw [hP, hIW], hInv3, ?_, ?_, ?_⟩
    · rw [hpq3, hlq2]; omega
    · rw [hpg3, hpq3, hg2, hpg, hpq, hlq2]; omega
    · intro _; right; rw [hpq3, hlq2]; omega

theorem foldOps_strict (ch : AlignmentChopper) (rec : Record) (tr : Nat)
    (hch : 1 ≤ ch.chunk_size)
    (hql : rec.qual.length = rec.seq.length) :
    ∀ (ops : List Cigar) (st : ChopState),
    ChopInv ch rec 0 st →
    st.local_query_consumed < ch.chunk_size →
    (∀ c ∈ ops, c.queryLen ≤ ch.chunk_size) →
    st.global_query_offset + st.local_query_consumed + cigarQueryLen ops
      ≤ rec.seq.length →
    ∃ st', foldOps ch rec tr st ops = some st' ∧ ChopInv ch rec 0 st' ∧
      st'.local_query_consumed < ch.chunk_size ∧
      st'.global_query_offset + st'.local_query_consumed
        = st.global_query_offset + st.local_query_consumed + cigarQueryLen ops ∧
      (∀ cl, ops.getLast? = some cl → 1 ≤ cl.queryLen →
        (st'.cigar_string = [] ∧ st'.local_query_consumed = 0)
          ∨ 1 ≤ st'.local_query_consumed) := by
  intro ops
  induction ops with
  | nil =>
    intro st hInv hlt _ hbound
    refine ⟨st, by simp [foldOps], hInv, hlt, by rw [cigarQueryLen_nil]; omega, ?_⟩
    intro cl hcl
    cases hcl
  | cons c cs ih =>
    intro st hInv hlt hops hbound
    rw [cigarQueryLen_cons] at hbound
    have hc := hops c (by simp)
    obtain ⟨st1, hP, hInv1, hlt1, hacc1, hlast1⟩ :=
      processOp_strict ch rec tr st c hch hql hInv hlt hc (by omega)
    obtain ⟨st', hF, hInv', hlt', hacc', hlast'⟩ :=
      ih st1 hInv1 hlt1 (fun d hd => hops d (by simp [hd])) (by omega)
    refine ⟨st', ?_, hInv', hlt', ?_, ?_⟩
    · simp only [foldOps, hP]
      exact hF
    · rw [cigarQueryLen_cons]
      omega
    · intro cl hcl hclq
      cases cs with
      | nil =>
        have hcl2 : cl = c := by
          have : ([c] : List Cigar).getLast? = some c := rfl
          rw [this] at hcl
          injection hcl with hcl
          exact hcl.symm
        subst hcl2
        have hst' : st' = st1 := by
          simp only [foldOps] at hF
          injection hF with hF
          exact hF.symm
        subst hst'
        exact hlast1 hclq
      | cons d ds =>
        have hrw : (c :: d :: ds).getLast? = (d :: ds).getLast? := by
          rfl
        rw [hrw] at hcl
        exact hlast' cl hcl hclq

/-- C10 (amended): with `min_length = 0`, `skip_clipped_bases = false`, a
valid chunk size, and a well-formed record whose CIGAR ends in a
query-consuming operation and whose every operation has query-consuming
length at most `chunk_size` (both restrictions are forced by the
counterexample: a single operation spanning several chunks, or trailing
reference-only operations, break the pattern), if the total query-consuming
length is `k * chunk_size` with `k ≥ 1` then `chop_read` emits exactly
`k + 1` fragments, and the extra trailing fragment has an empty CIGAR, an
empty sequence/quality slice, and carries the next dense fragment index
`k`. -/
theorem c10_amended (ch : AlignmentChopper) (rec : Record) (k : Nat)
    (hch : 1 ≤ ch.chunk_size)
    (hmin : ch.min_length = 0)
    (hskip : ch.skip_clipped_bases = false)
    (hwf : cigarQueryLen rec.cigar = rec.seq.length)
    (hql : rec.qual.length = rec.seq.length)
    (hops : ∀ c ∈ rec.cigar, c.queryLen ≤ ch.chunk_size)
    (hlast : ∃ cl, rec.cigar.getLast? = some cl ∧ 1 ≤ cl.queryLen)
    (_hk : 1 ≤ k)
    (hQ : cigarQueryLen rec.cigar = k * ch.chunk_size) :
    ∃ frags, chop_read ch rec = some frags ∧ frags.length = k + 1 ∧
      ∃ lastFrag, frags.getLast? = some lastFrag ∧ lastFrag.cigar = [] ∧
        lastFrag.seq = [] ∧ lastFrag.qual = [] ∧
        lastFrag.qname = rec.qname ++ "-" ++ toString k := by
  obtain ⟨cl, hcl, hclq⟩ := hlast
  have htrim : trimTrailing ch.skip_clipped_bases rec.cigar = (rec.cigar, 0) := by
    rw [hskip]
    exact trimTrailing_false rec.cigar
  have hw2 : (trimTrailing ch.skip_clipped_bases rec.cigar).2 = 0 := by rw [htrim]
  cases hcg : rec.cigar with
  | nil => rw [hcg] at hcl; cases hcl
  | cons c0 rest =>
    have hInv0 : ChopInv ch rec 0 initState := ChopInv_initState ch rec 0
    obtain ⟨stE, hfold, hInvE, hltE, haccE, hlastE⟩ :=
      foldOps_strict ch rec 0 hch hql (c0 :: rest) initState hInv0
        (show (0 : Nat) < ch.chunk_size by omega)
        (fun d hd => hops d (by rw [hcg]; exact hd))
        (by
          show 0 + 0 + cigarQueryLen (c0 :: rest) ≤ rec.seq.length
          rw [← hcg]
          omega)
    have hw1 : (trimTrailing ch.skip_clipped_bases rec.cigar).1 = c0 :: rest := by
      rw [htrim]
      exact hcg
    have hcore : chopCore ch rec = some stE := by
      simp only [chopCore, hw1, hw2]
      simp only [hskip, Bool.false_eq_true, false_and, if_false]
      exact hfold
    obtain ⟨hE1, hE2, hE3, hE4, hE5, hE6, hE7, hE8⟩ := hInvE
    have hsum := piecesFull_sum ch.chunk_size stE.pieces hE6
    have hcomm : k * ch.chunk_size = ch.chunk_size * k := Nat.mul_comm k ch.chunk_size
    have hQ2 : stE.global_query_offset + stE.local_query_consumed
        = k * ch.chunk_size := by
      have hi1 : initState.global_query_offset = 0 := rfl
      have hi2 : initState.local_query_consumed = 0 := rfl
      have hcq : cigarQueryLen (c0 :: rest) = k * ch.chunk_size := by
        rw [← hcg]
        exact hQ
      omega
    have hlq : stE.local_query_consumed = 0 := by
      have h1 : ch.chunk_size * stE.pieces.length + stE.local_query_consumed
          = ch.chunk_size * k := by omega
      have h2 := Nat.mul_add_mod ch.chunk_size stE.pieces.length
        stE.local_query_consumed
      rw [h1, Nat.mul_mod_right, Nat.mod_eq_of_lt hltE] at h2
      omega
    have hlen : stE.pieces.length = k := by
      have h1 : ch.chunk_size * stE.pieces.length = ch.chunk_size * k := by omega
      exact Nat.eq_of_mul_eq_mul_left (by omega) h1
    have hcsE : stE.cigar_string = [] := by
      have hd := hlastE cl (by rw [← hcg]; exact hcl) hclq
      rcases hd with ⟨hcs, _⟩ | hge
      · exact hcs
      · omega
    have hqoE : stE.global_query_offset = rec.seq.length := by omega
    have hfin : add_chunk_record ch rec stE.pieces stE.cigar_string
        stE.global_ref_offset stE.global_query_offset 0 true
        = some { qname := rec.qname ++ "-" ++ toString stE.pieces.length,
                 seq := [], qual := [], cigar := stE.cigar_string,
                 pos := rec.pos + (stE.global_ref_offset : Int),
                 flags := rec.flags, tid := rec.tid, mapq := rec.mapq,
                 mtid := rec.mtid, mpos := rec.mpos,
                 insert_size := rec.insert_size, aux := rgAux ch } := by
      have hmm : min rec.seq.length (stE.global_query_offset + ch.chunk_size)
          = rec.seq.length := by omega
      simp [add_chunk_record, hmm, hqoE, byteSlice_self, hql]
    have hread : chop_read ch rec = some (stE.pieces ++
        [{ qname := rec.qname ++ "-" ++ toString stE.pieces.length,
           seq := [], qual := [], cigar := stE.cigar_string,
           pos := rec.pos + (stE.global_ref_offset : Int),
           flags := rec.flags, tid := rec.tid, mapq := rec.mapq,
           mtid := rec.mtid, mpos := rec.mpos,
           insert_size := rec.insert_size, aux := rgAux ch }]) := by
      unfold chop_read
      rw [hcore]
      simp only [finalStep, hw2]
      rw [if_pos (by omega)]
      rw [hfin]
    refine ⟨_, hread, ?_, ?_⟩
    · simp [hlen]
    · refine ⟨_, List.getLast?_concat _, ?_, rfl, rfl, ?_⟩
      · exact hcsE
      · rw [hlen]

def c10wrec : Record :=
  { qname := "r", seq := [0, 1, 2, 3, 4, 5, 6, 7, 8, 9],
    qual := [0, 1, 2, 3, 4, 5, 6, 7, 8, 9], cigar := [.Match 5, .Match 5],
    pos := 0, flags := 0, tid := 1, mapq := 60, mtid := -1, mpos := -1,
    insert_size := 0, aux := [] }

/-- Witness for C10 (amended) at a concrete run: CIGAR `5M 5M`, chunk size 5,
k = 2, three fragments, the last one empty with index 2. -/
theorem c10_amended_witness :
    (1 ≤ c10ch.chunk_size ∧ c10ch.min_length = 0 ∧
     c10ch.skip_clipped_bases = false ∧
     cigarQueryLen c10wrec.cigar = c10wrec.seq.length ∧
     c10wrec.qual.length = c10wrec.seq.length ∧
     (∀ c ∈ c10wrec.cigar, c.queryLen ≤ c10ch.chunk_size) ∧
     1 ≤ 2 ∧
     cigarQueryLen c10wrec.cigar = 2 * c10ch.chunk_size) ∧
    (∃ frags, chop_read c10ch c10wrec = some frags ∧ frags.length = 2 + 1 ∧
      ∃ lastFrag, frags.getLast? = some lastFrag ∧ lastFrag.cigar = [] ∧
        lastFrag.seq = [] ∧ lastFrag.qual = [] ∧
        lastFrag.qname = c10wrec.qname ++ "-" ++ toString 2) :=
  ⟨⟨by decide, by decide, by decide, by decide, by decide, by decide, by decide,
    by decide⟩,
    c10_amended c10ch c10wrec 2 (by decide) (by decide) (by decide) (by decide)
      (by decide) (by decide) ⟨.Match 5, rfl, by decide⟩ (by decide) (by decide)⟩

/-- Witness for C5 (amended) at the builder arguments of the last fragment
of the repository's `skip_softclips_test` run. -/
theorem c5_amended_witness :
    (∀ r, add_chunk_record c5ch c5rec [] [] 0 11 3 true = some r →
      r.seq = byteSlice c5rec.seq 11
        (if true then min c5rec.seq.length (11 + c5ch.chunk_size) - 3
         else min c5rec.seq.length (11 + c5ch.chunk_size)) ∧
      r.qual = byteSlice c5rec.qual 11
        (if true then min c5rec.seq.length (11 + c5ch.chunk_size) - 3
         else min c5rec.seq.length (11 + c5ch.chunk_size))) ∧
    (add_chunk_record c5ch c5rec [] [] 0 11 3 true = none ↔
      ((true = true ∧ min c5rec.seq.length (11 + c5ch.chunk_size) < 3) ∨
       ¬ (11 ≤ (if true then min c5rec.seq.length (11 + c5ch.chunk_size) - 3
                else min c5rec.seq.length (11 + c5ch.chunk_size)) ∧
          (if true then min c5rec.seq.length (11 + c5ch.chunk_size) - 3
           else min c5rec.seq.length (11 + c5ch.chunk_size)) ≤ c5rec.qual.length))) :=
  c5_amended c5ch c5rec [] [] 0 11 3 true
